import Mathlib

/-!
Verification of incremental-backups-tools against its specification.

Shallow embedding of the repository code:
* the pyrsync delta engine (`blockchecksums`, `rsyncdelta`, `patchstream`) used by
  `DiffIndex.compute` and `apply_diff` in `incremental_backups_tools.py`;
  pyrsync itself is an external dependency, so it is modelled from the spec
  (section 4.1/4.2, DeltaEngine);
* `DiffIndex.compute` (`incremental_backups_tools.py`, lines 130-155);
* `apply_diff` (`incremental_backups_tools.py`, lines 385-473), with the
  filesystem as a finite map from relative path to byte list;
* `TarVolumeWriter._check_size` / `add` (`incremental_backups_tools/tarvolume.py`);
* `get_full_and_incremental` (`incremental_backups_tools/__init__.py`);
* `TarVolume.open` mode dispatch (`incremental_backups_tools/tarvolume.py`).

Bytes are modelled as `Nat`, byte streams as `List Nat`.
-/

/-- Modelled from the spec (4.1): the 32-bit rolling weak checksum of a block
(Adler-32 style: two 16-bit sums).  pyrsync is an external dependency not in
the repository source. -/
def weakchecksum (l : List Nat) : Nat :=
  (l.sum % 65536) + 65536 * ((l.foldl (fun acc x => acc + acc + x) 0) % 65536)

/-- Modelled from the spec (4.1): the strong (cryptographic) checksum of a
block.  A 256-bit digest is collision-free for all practical purposes, so it
is modelled as an injective function of the block bytes: the block itself. -/
def strongchecksum (block : List Nat) : List Nat := block

/-- One signature block: weak checksum paired with strong checksum. -/
abbrev SigBlock := Nat × List Nat

/-- Fuel-driven block splitter (structural recursion on the fuel, so the
kernel can evaluate it); the fuel-exhausted branch is unreachable whenever the
fuel is at least the list length. -/
def chunksFuel (bs : Nat) : Nat → List Nat → List (List Nat)
  | 0, l => if l = [] then [] else [l]
  | _ + 1, [] => []
  | fuel + 1, a :: rest => (a :: rest.take (bs - 1)) :: chunksFuel bs fuel (rest.drop (bs - 1))

/-- Split a byte list into consecutive blocks of `bs` bytes, the final block
possibly shorter.  (`bs - 1` is taken from the tail, so for `0 < bs` each
block is `take bs` and the rest is `drop bs`.) -/
def chunks (bs : Nat) (l : List Nat) : List (List Nat) := chunksFuel bs l.length l

/-- Modelled from the spec (4.1): `pyrsync.blockchecksums` - the per-block
weak+strong signature of a file, blocks ordered by offset. -/
def blockchecksums (bs : Nat) (data : List Nat) : List SigBlock :=
  (chunks bs data).map (fun c => (weakchecksum c, strongchecksum c))

/-- A delta instruction: copy block `i` of the old file, or insert literal
bytes (spec 3, Delta). -/
inductive RInstr where
  | copy (i : Nat)
  | lit (bytes : List Nat)
deriving DecidableEq, Repr

/-- Find the first (ascending block index) signature block whose weak and
strong checksums both match the window (spec 4.2 tie-break rule).
`base` is the index of the head of `sig`. -/
def findMatch (sig : List SigBlock) (window : List Nat) (base : Nat) : Option Nat :=
  match sig with
  | [] => none
  | b :: rest =>
    if b.1 = weakchecksum window ∧ b.2 = strongchecksum window then some base
    else findMatch rest window (base + 1)

/-- Coalesce pending literal bytes into a single instruction (spec 4.2). -/
def flushLit (pending : List Nat) : List RInstr :=
  if pending = [] then [] else [RInstr.lit pending]

/-- Modelled from the spec (4.2): the rolling-window delta loop of
`pyrsync.rsyncdelta`, driven by fuel (structural recursion, so the kernel can
evaluate it).  On a verified block match emit `copy` and advance by a whole
block; otherwise move one byte into the pending literal.  (`bs - 1` is taken
from the tail, so for `0 < bs` the advance is exactly `bs` bytes.)  The
fuel-exhausted branch is unreachable whenever the fuel is at least the length
of the remaining new bytes. -/
def rsyncdeltaFuel (sig : List SigBlock) (bs : Nat) : Nat → List Nat → List Nat → List RInstr
  | 0, newL, pending => flushLit (pending ++ newL)
  | _ + 1, [], pending => flushLit pending
  | fuel + 1, a :: rest, pending =>
    match findMatch sig ((a :: rest).take bs) 0 with
    | some i =>
      flushLit pending ++ RInstr.copy i :: rsyncdeltaFuel sig bs fuel (rest.drop (bs - 1)) []
    | none => rsyncdeltaFuel sig bs fuel rest (pending ++ [a])

/-- Modelled from the spec (4.2): `pyrsync.rsyncdelta` - delta of the new
bytes against the old block signature. -/
def rsyncdelta (sig : List SigBlock) (bs : Nat) (newData : List Nat) : List RInstr :=
  rsyncdeltaFuel sig bs newData.length newData []

/-- Modelled from the spec (4.2): `pyrsync.patchstream` - replay the delta
against the old bytes; `copy i` reads block `i` (offset `i * bs`, at most `bs`
bytes) of the old stream, `lit` writes the literal bytes. -/
def patchstream (old : List Nat) (bs : Nat) : List RInstr → List Nat
  | [] => []
  | RInstr.copy i :: rest => (old.drop (i * bs)).take bs ++ patchstream old bs rest
  | RInstr.lit b :: rest => b ++ patchstream old bs rest

/-- One entry of the deltas list produced by `DiffIndex.compute`: the updated
path together with the pyrsync delta stored for it (the code stores the
JSON-serialized delta in a temp file; the serialization round trip is
modelled as the identity). -/
structure DeltaEntry where
  path : String
  delta : List RInstr
deriving DecidableEq, Repr

/-- The data of a `DirIndex` (`incremental_backups_tools.py`,
`DirIndex.data`): relative file list, relative subdirectory list, per-file
block signature, and the per-file byte contents of the live directory the
index was taken from (`DiffIndex.compute` reads the current file bytes from
the directory recorded in `dir_index` when generating a delta). -/
structure DirIndexData where
  files : List String
  subdirs : List String
  index : String → List SigBlock
  contents : String → List Nat

/-- The result of `DiffIndex.compute` (`incremental_backups_tools.py`,
lines 130-155). -/
structure DiffIndexData where
  deleted : List String
  created : List String
  updated : List String
  deleted_dirs : List String
  deltas : List DeltaEntry
  hashdir : Nat
deriving DecidableEq, Repr

/-- Python `list(set(a) - set(b))`: set difference of two lists (the
arbitrary set iteration order is modelled as first-occurrence order). -/
def pySetDiff (a b : List String) : List String :=
  (a.filter (fun x => !(b.contains x))).dedup

/-- Python `set(a).intersection(set(b))` as a list. -/
def pySetInter (a b : List String) : List String :=
  (a.filter (fun x => b.contains x)).dedup

/-- The loop of `DiffIndex.compute` over the intersection of the two file
sets (`incremental_backups_tools.py` lines 141-153): a path whose stored
block signature differs between the two indexes is appended to `updated`,
and the pyrsync delta of the new file bytes against the old signature is
appended to `deltas` in the same iteration. -/
def computeUpdatedDeltas (dirIdx cmpIdx : DirIndexData) (bs : Nat) :
    List String → List String × List DeltaEntry
  | [] => ([], [])
  | f :: rest =>
    let tail := computeUpdatedDeltas dirIdx cmpIdx bs rest
    if cmpIdx.index f ≠ dirIdx.index f then
      (f :: tail.1, ⟨f, rsyncdelta (cmpIdx.index f) bs (dirIdx.contents f)⟩ :: tail.2)
    else tail

/-- `DiffIndex.compute` (`incremental_backups_tools.py` lines 130-155).
`dirIdx` is the current directory index (`dir_index`), `cmpIdx` the old one
(`cmp_index`); `hashdir` is the dirtools whole-tree hash of the current
directory, recomputed by the external collaborator `dirtools.Dir(...).hash()`
and passed in here. -/
def DiffIndex_compute (dirIdx cmpIdx : DirIndexData) (bs : Nat) (hashdir : Nat) :
    DiffIndexData :=
  let ud := computeUpdatedDeltas dirIdx cmpIdx bs (pySetInter cmpIdx.files dirIdx.files)
  { deleted := pySetDiff cmpIdx.files dirIdx.files
    created := pySetDiff dirIdx.files cmpIdx.files
    updated := ud.1
    deleted_dirs := pySetDiff cmpIdx.subdirs dirIdx.subdirs
    deltas := ud.2
    hashdir := hashdir }

/-- The filesystem under `base_path`, as a finite map from relative path to
byte contents, plus the set of directories (emptiness of a directory is not
modelled; `apply_diff` only removes a directory when it is present). -/
structure FS where
  files : List (String × List Nat)
  dirs : List String
deriving DecidableEq, Repr

def fsLookup (fs : FS) (p : String) : Option (List Nat) := fs.files.lookup p

def fsWrite (fs : FS) (p : String) (b : List Nat) : FS :=
  { fs with files := (p, b) :: fs.files.filter (fun q => !(q.1 == p)) }

def fsRemoveFile (fs : FS) (p : String) : FS :=
  { fs with files := fs.files.filter (fun q => !(q.1 == p)) }

def fsRemoveDir (fs : FS) (p : String) : FS :=
  { fs with dirs := fs.dirs.filter (fun q => !(q == p)) }

/-- `get_hash` (`incremental_backups_tools.py` line 22): the SHA-256 hex
digest of the path, used as the archive member name.  SHA-256 is modelled as
an injective encoding of the path: the path itself. -/
def get_hash (p : String) : String := p

/-- The diff archive created by `DiffData.create_archive`: a member named
`updated/{get_hash path}` holds the JSON-serialized pyrsync delta, a member
named `created/{get_hash path}` holds the raw file bytes; the two namespaces
are modelled as the two association lists. -/
structure Archive where
  updatedMembers : List (String × List RInstr)
  createdMembers : List (String × List Nat)
deriving DecidableEq, Repr

/-- The `updated` loop of `apply_diff` (`incremental_backups_tools.py` lines
397-429): extract the delta member (a missing member raises `KeyError`,
which is caught, logged and re-raised as a fatal generic exception with the
message DIFF CORRUPTED - modelled as the error value), patch the current
file bytes into a temp file and replace the target with the result.  A
missing target file raises an uncaught `IOError`. -/
def applyUpdated (ar : Archive) (bs : Nat) : FS → List String → Except String FS
  | fs, [] => Except.ok fs
  | fs, p :: rest =>
    match ar.updatedMembers.lookup (get_hash p) with
    | none => Except.error ("DIFF CORRUPTED")
    | some delta =>
      match fsLookup fs p with
      | none => Except.error ("IOError")
      | some old => applyUpdated ar bs (fsWrite fs p (patchstream old bs delta)) rest

/-- The `created` loop of `apply_diff` (lines 432-451): extract the member
and write its bytes to the target path (parent directory creation is not
modelled); a missing member aborts with DIFF CORRUPTED as above. -/
def applyCreated (ar : Archive) : FS → List String → Except String FS
  | fs, [] => Except.ok fs
  | fs, p :: rest =>
    match ar.createdMembers.lookup (get_hash p) with
    | none => Except.error ("DIFF CORRUPTED")
    | some bytes => applyCreated ar (fsWrite fs p bytes) rest

/-- Helper hash over a string, used by the modelled tree hash. -/
def strHash (s : String) : Nat := s.toList.foldl (fun a c => a * 131 + c.toNat) 7

/-- Helper hash over a byte list, used by the modelled tree hash. -/
def bytesHash (l : List Nat) : Nat := l.foldl (fun a x => a * 257 + x + 1) 3

/-- Modelled from the spec (3, Snapshot): the dirtools whole-tree hash
(`dirtools.Dir(path).hash()` is an external collaborator), a deterministic
aggregate of the tree contents. -/
def hashFS (fs : FS) : Nat :=
  (fs.files.map (fun pb => strHash pb.1 * bytesHash pb.2)).sum + (fs.dirs.map strHash).sum

/-- The log line written by the final integrity check of `apply_diff`
(`incremental_backups_tools.py` line 472). -/
def integrityMsg : String := "Diff integrity check failed."

/-- `apply_diff` (`incremental_backups_tools.py` lines 385-473): apply the
updated, created, deleted and deleted_dirs changes in that order; finally
recompute the tree hash of the base directory, compare it with the stored
`hashdir`, and on mismatch only write a log line (the `AssertionError` is
caught and `log.error` is called; the function still returns normally).  The
result pairs the final filesystem with the log lines written by the
integrity check. -/
def apply_diff (fs : FS) (d : DiffIndexData) (ar : Archive) (bs : Nat) :
    Except String (FS × List String) := do
  let fs1 ← applyUpdated ar bs fs d.updated
  let fs2 ← applyCreated ar fs1 d.created
  let fs3 := d.deleted.foldl fsRemoveFile fs2
  let fs4 := d.deleted_dirs.foldl fsRemoveDir fs3
  Except.ok (fs4, if hashFS fs4 = d.hashdir then [] else [integrityMsg])

/-- The successive contents of one target file during the replace step of the
`updated` loop of `apply_diff` (lines 411-424): the patched result is first
written to a separate temp file, then the target is opened with mode wb -
truncating it - and the temp file contents are copied in with
`shutil.copyfileobj`.  There is no rename; the trace is target-before,
target-after-truncation, target-after-copy. -/
def replaceTrace (old patched : List Nat) : List (List Nat) := [old, [], patched]

/-- The mutable state of `TarVolumeWriter`
(`incremental_backups_tools/tarvolume.py`): the entry sizes of the current
open volume and of each closed volume, in creation order.  The on-disk
archive size returned by `_archive_size` (`os.fstat`) is modelled as the sum
of the sizes of the entries added so far (gzip compression modelled as the
identity). -/
structure TarVolumeWriterState where
  cur : List Nat
  closed : List (List Nat)
deriving DecidableEq, Repr

/-- `TarVolumeWriter._archive_size` (tarvolume.py lines 142-144). -/
def archive_size (s : TarVolumeWriterState) : Nat := s.cur.sum

/-- `TarVolumeWriter._check_size` (tarvolume.py lines 146-161): if the
current archive size is nonzero and the projected size exceeds the volume
size, close the current volume and start a new empty one. -/
def check_size (L : Nat) (s : TarVolumeWriterState) (size : Nat) : TarVolumeWriterState :=
  if archive_size s ≠ 0 ∧ size > L then ⟨[], s.closed ++ [s.cur]⟩ else s

/-- `TarVolumeWriter.add` (tarvolume.py lines 173-195): compute the projected
size (current archive size plus `os.path.getsize` of the file being added),
roll the volume if needed, then add the entry to the current volume. -/
def tarvolume_add (L : Nat) (s : TarVolumeWriterState) (e : Nat) : TarVolumeWriterState :=
  let s2 := check_size L s (archive_size s + e)
  ⟨s2.cur ++ [e], s2.closed⟩

/-- A whole sequence of `add` calls on a fresh `TarVolumeWriter`. -/
def tarvolume_addAll (L : Nat) (es : List Nat) : TarVolumeWriterState :=
  es.foldl (tarvolume_add L) ⟨[], []⟩

/-- `TarVolumeWriter.close` (tarvolume.py lines 163-171) finalizes the
current volume; the result lists every volume written, in creation order. -/
def tarvolume_close (s : TarVolumeWriterState) : List (List Nat) := s.closed ++ [s.cur]

/-- `_dir.get(key + \x7b0\x7d.full.*, sort_reverse=True)` in
`get_full_and_incremental` (`incremental_backups_tools/__init__.py` line
269): the most recent full-backup timestamp.  dirtools is an external
collaborator; its listing is modelled as the list of artifact timestamps. -/
def last_full (fulls : List Nat) : Nat := fulls.foldl max 0

/-- The generator loop of `get_full_and_incremental` (`__init__.py` lines
274-279): yield every state whose timestamp is strictly greater than the
last full backup and for which no full backup exists at that exact timestamp
(`FileFinder.check_key` is modelled as membership in `fulls`). -/
def incrStates (lf : Nat) (fulls : List Nat) : List Nat → List Nat
  | [] => []
  | s :: rest =>
    if lf < s ∧ s ∉ fulls then s :: incrStates lf fulls rest
    else incrStates lf fulls rest

/-- `get_full_and_incremental` (`__init__.py` lines 262-279): the first chain
element is the most recent full backup, followed by the selected incremental
states in listing order. -/
def get_full_and_incremental (fulls states : List Nat) : List Nat :=
  last_full fulls :: incrStates (last_full fulls) fulls states

/-- Python substring containment (`needle in haystack`) on strings, modelled
on char lists. -/
def pyInStr (needle : List Char) : List Char → Bool
  | [] => needle.isEmpty
  | c :: t => needle.isPrefixOf (c :: t) || pyInStr needle t

/-- The two classes `TarVolume.open` can return. -/
inductive TVKind where
  | reader
  | writer
deriving DecidableEq, Repr

/-- `TarVolume.open` (tarvolume.py lines 241-250): raise `ValueError` when
the mode has length greater than one or is not a Python substring of the
two-character string rw (`mode not in` that string); mode r yields a
`TarVolumeReader`; anything else that passed validation falls into the else
branch and yields a `TarVolumeWriter`. -/
def TarVolume_open (mode : List Char) : Except String TVKind :=
  if mode.length > 1 ∨ !(pyInStr mode ['r', 'w']) then Except.error ("ValueError")
  else if mode = ['r'] then Except.ok TVKind.reader
  else Except.ok TVKind.writer

/-- Concrete old file bytes used by the witnesses. -/
def exOld : List Nat := [1, 2, 3]

/-- Concrete new file bytes used by the witnesses. -/
def exNew : List Nat := [1, 2, 9, 9]

/-- Concrete old directory index (one file, signature of `exOld`). -/
def exCmpIdx : DirIndexData :=
  { files := ["file1"]
    subdirs := []
    index := fun _ => blockchecksums 2 exOld
    contents := fun _ => exOld }

/-- Concrete current directory index (same file, contents `exNew`). -/
def exDirIdx : DirIndexData :=
  { files := ["file1"]
    subdirs := []
    index := fun _ => blockchecksums 2 exNew
    contents := fun _ => exNew }

/-- Concrete base filesystem used by the apply_diff theorems. -/
def exFS : FS := ⟨[("file1", [1, 2, 3]), ("file2", [7])], ["d1"]⟩

/-- Concrete diff whose `updated` member is missing from `exArchiveC2`. -/
def exDiffC2 : DiffIndexData :=
  { deleted := ["file2"]
    created := ["file4"]
    updated := ["file1"]
    deleted_dirs := ["d1"]
    deltas := []
    hashdir := 0 }

/-- Concrete archive lacking the `updated/{get_hash file1}` member while the
`created/{get_hash file4}` member is present. -/
def exArchiveC2 : Archive := ⟨[], [("file4", [9, 9])]⟩

/-- Concrete diff whose stored tree hash does not match any reachable tree
hash (all members present in `exArchiveC3`). -/
def exDiffC3 : DiffIndexData :=
  { deleted := []
    created := ["file4"]
    updated := []
    deleted_dirs := []
    deltas := []
    hashdir := 1 }

/-- Concrete archive holding the single created member of `exDiffC3`. -/
def exArchiveC3 : Archive := ⟨[], [("file4", [9])]⟩

/-- Concrete diff with every member present in `exArchiveOk`. -/
def exDiffOk : DiffIndexData :=
  { deleted := ["file2"]
    created := ["file4"]
    updated := ["file1"]
    deleted_dirs := ["d1"]
    deltas := []
    hashdir := 0 }

/-- Concrete archive holding every member `exDiffOk` needs. -/
def exArchiveOk : Archive := ⟨[("file1", [RInstr.lit [5]])], [("file4", [9])]⟩

lemma take_pos_cons {bs : Nat} (h : 0 < bs) (a : Nat) (rest : List Nat) :
    (a :: rest).take bs = a :: rest.take (bs - 1) := by
  cases bs with
  | zero => omega
  | succ k => simp [List.take_succ_cons]

lemma drop_pos_cons {bs : Nat} (h : 0 < bs) (a : Nat) (rest : List Nat) :
    (a :: rest).drop bs = rest.drop (bs - 1) := by
  cases bs with
  | zero => omega
  | succ k => simp [List.drop_succ_cons]

lemma chunksFuel_congr {bs : Nat} :
    ∀ {f1 f2 : Nat} {l : List Nat}, l.length ≤ f1 → l.length ≤ f2 →
      chunksFuel bs f1 l = chunksFuel bs f2 l := by
  intro f1
  induction f1 with
  | zero =>
    intro f2 l h1 h2
    have hl : l = [] := by
      cases l with
      | nil => rfl
      | cons a t => simp at h1
    subst hl
    cases f2 <;> rfl
  | succ f ih =>
    intro f2 l h1 h2
    cases l with
    | nil => cases f2 <;> rfl
    | cons a rest =>
      cases f2 with
      | zero => simp at h2
      | succ g =>
        simp only [chunksFuel, List.cons.injEq, true_and]
        have hd := List.length_drop (bs - 1) rest
        have h1r : (rest.drop (bs - 1)).length ≤ f := by
          simp only [List.length_cons] at h1
          omega
        have h2r : (rest.drop (bs - 1)).length ≤ g := by
          simp only [List.length_cons] at h2
          omega
        exact ih h1r h2r

lemma chunks_nil {bs : Nat} : chunks bs [] = [] := rfl

lemma chunks_cons {bs : Nat} (a : Nat) (rest : List Nat) :
    chunks bs (a :: rest) = (a :: rest.take (bs - 1)) :: chunks bs (rest.drop (bs - 1)) := by
  show chunksFuel bs (a :: rest).length (a :: rest) = _
  simp only [List.length_cons, chunksFuel, List.cons.injEq, true_and]
  exact chunksFuel_congr (by have := List.length_drop (bs - 1) rest; omega) le_rfl

lemma chunks_getElem {bs : Nat} (hbs : 0 < bs) :
    ∀ (i : Nat) (l : List Nat) (c : List Nat),
      (chunks bs l)[i]? = some c → c = (l.drop (i * bs)).take bs := by
  intro i
  induction i with
  | zero =>
    intro l c hc
    cases l with
    | nil => simp [chunks_nil] at hc
    | cons a rest =>
      rw [chunks_cons] at hc
      simp only [List.getElem?_cons_zero, Option.some.injEq] at hc
      rw [Nat.zero_mul, List.drop_zero, take_pos_cons hbs]
      exact hc.symm
  | succ i ih =>
    intro l c hc
    cases l with
    | nil => simp [chunks_nil] at hc
    | cons a rest =>
      rw [chunks_cons] at hc
      simp only [List.getElem?_cons_succ] at hc
      have := ih (rest.drop (bs - 1)) c hc
      rw [this, ← drop_pos_cons hbs a rest, List.drop_drop]
      congr 2
      rw [Nat.succ_mul]
      omega

lemma blockchecksums_getElem {bs : Nat} (hbs : 0 < bs) {l : List Nat} {i : Nat}
    {b : SigBlock} (hb : (blockchecksums bs l)[i]? = some b) :
    b.2 = (l.drop (i * bs)).take bs := by
  unfold blockchecksums at hb
  rw [List.getElem?_map] at hb
  cases hc : (chunks bs l)[i]? with
  | none => rw [hc] at hb; simp at hb
  | some c =>
    rw [hc] at hb
    simp only [Option.map_some', Option.some.injEq] at hb
    have := chunks_getElem hbs i l c hc
    rw [← hb]
    simpa [strongchecksum] using this

lemma findMatch_spec :
    ∀ (sig : List SigBlock) (w : List Nat) (base i : Nat),
      findMatch sig w base = some i →
      base ≤ i ∧ ∃ b, sig[i - base]? = some b ∧ b.2 = strongchecksum w := by
  intro sig
  induction sig with
  | nil => intro w base i h; simp [findMatch] at h
  | cons b rest ih =>
    intro w base i h
    unfold findMatch at h
    by_cases hcond : b.1 = weakchecksum w ∧ b.2 = strongchecksum w
    · rw [if_pos hcond] at h
      have hbase : i = base := by
        simpa using h.symm
      subst hbase
      refine ⟨le_rfl, b, ?_, hcond.2⟩
      simp
    · rw [if_neg hcond] at h
      obtain ⟨hle, b2, hb2, hs⟩ := ih w (base + 1) i h
      refine ⟨by omega, b2, ?_, hs⟩
      have hidx : i - base = (i - (base + 1)) + 1 := by omega
      rw [hidx, List.getElem?_cons_succ]
      exact hb2

lemma patchstream_append (old : List Nat) (bs : Nat) (d1 d2 : List RInstr) :
    patchstream old bs (d1 ++ d2) = patchstream old bs d1 ++ patchstream old bs d2 := by
  induction d1 with
  | nil => simp [patchstream]
  | cons ins rest ih => cases ins <;> simp [patchstream, ih]

lemma patchstream_flushLit (old : List Nat) (bs : Nat) (p : List Nat) :
    patchstream old bs (flushLit p) = p := by
  unfold flushLit
  by_cases hp : p = []
  · simp [hp, patchstream]
  · simp [hp, patchstream]

lemma roundtripFuel {bs : Nat} (hbs : 0 < bs) (old : List Nat) :
    ∀ (fuel : Nat) (newL pending : List Nat), newL.length ≤ fuel →
      patchstream old bs (rsyncdeltaFuel (blockchecksums bs old) bs fuel newL pending) =
        pending ++ newL := by
  intro fuel
  induction fuel with
  | zero =>
    intro newL pending hf
    have hl : newL = [] := by
      cases newL with
      | nil => rfl
      | cons a t => simp at hf
    subst hl
    simp [rsyncdeltaFuel, patchstream_flushLit]
  | succ fuel ih =>
    intro newL pending hf
    cases newL with
    | nil => simp [rsyncdeltaFuel, patchstream_flushLit]
    | cons a rest =>
      cases hm : findMatch (blockchecksums bs old) ((a :: rest).take bs) 0 with
      | none =>
        simp only [rsyncdeltaFuel, hm]
        rw [ih rest (pending ++ [a]) (by simp at hf; omega)]
        simp
      | some i =>
        simp only [rsyncdeltaFuel, hm]
        rw [patchstream_append]
        rw [patchstream_flushLit]
        show pending ++ patchstream old bs (RInstr.copy i :: _) = _
        simp only [patchstream]
        obtain ⟨-, b, hb, hs⟩ := findMatch_spec _ _ _ _ hm
        rw [Nat.sub_zero] at hb
        have hblk := blockchecksums_getElem hbs hb
        have hwin : (old.drop (i * bs)).take bs = (a :: rest).take bs := by
          rw [hblk] at hs
          simpa [strongchecksum] using hs
        have hrest : (rest.drop (bs - 1)).length ≤ fuel := by
          have := List.length_drop (bs - 1) rest
          simp only [List.length_cons] at hf
          omega
        rw [ih (rest.drop (bs - 1)) [] hrest]
        rw [hwin, List.nil_append, ← drop_pos_cons hbs a rest]
        congr 1
        exact List.take_append_drop bs (a :: rest)

/-- The pyrsync round trip: patching the old bytes with the delta of the new
bytes against the old block signature reconstructs the new bytes exactly. -/
theorem pyrsync_roundtrip (old newData : List Nat) (bs : Nat) (hbs : 0 < bs) :
    patchstream old bs (rsyncdelta (blockchecksums bs old) bs newData) = newData := by
  have h := roundtripFuel hbs old newData.length newData [] le_rfl
  simpa using h

example : chunks 2 [1, 2, 3, 4, 5] = [[1, 2], [3, 4], [5]] := by decide
example :
    patchstream [1, 2, 3] 2 (rsyncdelta (blockchecksums 2 [1, 2, 3]) 2 [9, 1, 2, 3, 7]) =
      [9, 1, 2, 3, 7] := by decide
example :
    patchstream [] 2 (rsyncdelta (blockchecksums 2 []) 2 [9, 1]) = [9, 1] := by decide
example :
    patchstream [5, 6] 1 (rsyncdelta (blockchecksums 1 [5, 6]) 1 []) = [] := by decide


lemma mem_pySetDiff {x : String} {a b : List String} :
    x ∈ pySetDiff a b ↔ x ∈ a ∧ x ∉ b := by
  simp [pySetDiff, List.mem_filter]

lemma mem_pySetInter {x : String} {a b : List String} :
    x ∈ pySetInter a b ↔ x ∈ a ∧ x ∈ b := by
  simp [pySetInter, List.mem_filter]

lemma computeUpdated_fst_mem (dirIdx cmpIdx : DirIndexData) (bs : Nat) :
    ∀ (l : List String) (f : String),
      f ∈ (computeUpdatedDeltas dirIdx cmpIdx bs l).1 ↔
        f ∈ l ∧ cmpIdx.index f ≠ dirIdx.index f := by
  intro l
  induction l with
  | nil => intro f; simp [computeUpdatedDeltas]
  | cons g rest ih =>
    intro f
    by_cases hg : cmpIdx.index g ≠ dirIdx.index g
    · simp only [computeUpdatedDeltas, if_pos hg, List.mem_cons]
      constructor
      · rintro (rfl | hf)
        · exact ⟨Or.inl rfl, hg⟩
        · obtain ⟨h1, h2⟩ := (ih f).mp hf
          exact ⟨Or.inr h1, h2⟩
      · rintro ⟨rfl | h1, h2⟩
        · exact Or.inl rfl
        · exact Or.inr ((ih f).mpr ⟨h1, h2⟩)
    · simp only [computeUpdatedDeltas, if_neg hg]
      rw [ih f]
      constructor
      · rintro ⟨h1, h2⟩
        exact ⟨List.mem_cons_of_mem g h1, h2⟩
      · rintro ⟨h1, h2⟩
        rcases List.mem_cons.mp h1 with rfl | h1
        · exact absurd h2 hg
        · exact ⟨h1, h2⟩

lemma computeUpdated_map_path (dirIdx cmpIdx : DirIndexData) (bs : Nat) :
    ∀ l : List String,
      (computeUpdatedDeltas dirIdx cmpIdx bs l).2.map DeltaEntry.path =
        (computeUpdatedDeltas dirIdx cmpIdx bs l).1 := by
  intro l
  induction l with
  | nil => simp [computeUpdatedDeltas]
  | cons g rest ih =>
    by_cases hg : cmpIdx.index g ≠ dirIdx.index g
    · simp [computeUpdatedDeltas, if_pos hg, ih]
    · simp [computeUpdatedDeltas, if_neg hg, ih]

lemma computeUpdated_delta_eq (dirIdx cmpIdx : DirIndexData) (bs : Nat) :
    ∀ (l : List String) (e : DeltaEntry),
      e ∈ (computeUpdatedDeltas dirIdx cmpIdx bs l).2 →
      e.delta = rsyncdelta (cmpIdx.index e.path) bs (dirIdx.contents e.path) := by
  intro l
  induction l with
  | nil => intro e he; simp [computeUpdatedDeltas] at he
  | cons g rest ih =>
    intro e he
    by_cases hg : cmpIdx.index g ≠ dirIdx.index g
    · simp only [computeUpdatedDeltas, if_pos hg, List.mem_cons] at he
      rcases he with rfl | he
      · rfl
      · exact ih e he
    · simp only [computeUpdatedDeltas, if_neg hg] at he
      exact ih e he

/-- C5: for every pair of directory indexes, `DiffIndex.compute` returns
`created` as the current file set minus the old one, `deleted` as the old
file set minus the current one, and `deleted_dirs` as the old subdir set
minus the current one (all as sets); consequently `created` and `deleted`
are disjoint and every `updated` path lies in both file sets. -/
theorem diffindex_compute_set_semantics (dirIdx cmpIdx : DirIndexData) (bs hashdir : Nat) :
    (∀ x, x ∈ (DiffIndex_compute dirIdx cmpIdx bs hashdir).created ↔
        x ∈ dirIdx.files ∧ x ∉ cmpIdx.files) ∧
    (∀ x, x ∈ (DiffIndex_compute dirIdx cmpIdx bs hashdir).deleted ↔
        x ∈ cmpIdx.files ∧ x ∉ dirIdx.files) ∧
    (∀ x, x ∈ (DiffIndex_compute dirIdx cmpIdx bs hashdir).deleted_dirs ↔
        x ∈ cmpIdx.subdirs ∧ x ∉ dirIdx.subdirs) ∧
    (∀ x, ¬(x ∈ (DiffIndex_compute dirIdx cmpIdx bs hashdir).created ∧
        x ∈ (DiffIndex_compute dirIdx cmpIdx bs hashdir).deleted)) ∧
    (∀ x ∈ (DiffIndex_compute dirIdx cmpIdx bs hashdir).updated,
        x ∈ dirIdx.files ∧ x ∈ cmpIdx.files) := by
  refine ⟨fun x => mem_pySetDiff, fun x => mem_pySetDiff, fun x => mem_pySetDiff,
    fun x hx => ?_, fun x hx => ?_⟩
  · obtain ⟨h1, h2⟩ := hx
    exact (mem_pySetDiff.mp h2).2 (mem_pySetDiff.mp h1).1
  · have h := (computeUpdated_fst_mem dirIdx cmpIdx bs
      (pySetInter cmpIdx.files dirIdx.files) x).mp hx
    have h2 := mem_pySetInter.mp h.1
    exact ⟨h2.2, h2.1⟩

/-- C6: a path present in both file sets is in `updated` iff its stored
block signature differs between the two indexes; signature equality, not any
timestamp, decides membership. -/
theorem diffindex_updated_iff_signature (dirIdx cmpIdx : DirIndexData) (bs hashdir : Nat)
    (p : String) (hbase : p ∈ cmpIdx.files) (hcmp : p ∈ dirIdx.files) :
    p ∈ (DiffIndex_compute dirIdx cmpIdx bs hashdir).updated ↔
      cmpIdx.index p ≠ dirIdx.index p := by
  have h := computeUpdated_fst_mem dirIdx cmpIdx bs (pySetInter cmpIdx.files dirIdx.files) p
  have hin : p ∈ pySetInter cmpIdx.files dirIdx.files := mem_pySetInter.mpr ⟨hbase, hcmp⟩
  constructor
  · intro hu
    exact (h.mp hu).2
  · intro hneq
    exact h.mpr ⟨hin, hneq⟩

/-- C6 witness: file1 is in both concrete indexes and its signature differs,
so it is updated. -/
theorem diffindex_updated_iff_signature_witness :
    ("file1" ∈ exCmpIdx.files ∧ "file1" ∈ exDirIdx.files) ∧
      ("file1" ∈ (DiffIndex_compute exDirIdx exCmpIdx 2 0).updated ↔
        exCmpIdx.index "file1" ≠ exDirIdx.index "file1") :=
  ⟨⟨by decide, by decide⟩,
    diffindex_updated_iff_signature exDirIdx exCmpIdx 2 0 "file1" (by decide) (by decide)⟩

/-- C10: in every result of `DiffIndex.compute` the deltas list and the
updated list correspond one-to-one, in the same iteration order: mapping
each delta entry to its path yields exactly the updated list, so the lengths
agree and the sets of paths agree. -/
theorem diffindex_deltas_match_updated (dirIdx cmpIdx : DirIndexData) (bs hashdir : Nat) :
    (DiffIndex_compute dirIdx cmpIdx bs hashdir).deltas.map DeltaEntry.path =
      (DiffIndex_compute dirIdx cmpIdx bs hashdir).updated ∧
    (DiffIndex_compute dirIdx cmpIdx bs hashdir).deltas.length =
      (DiffIndex_compute dirIdx cmpIdx bs hashdir).updated.length ∧
    ∀ p, (∃ e ∈ (DiffIndex_compute dirIdx cmpIdx bs hashdir).deltas, e.path = p) ↔
      p ∈ (DiffIndex_compute dirIdx cmpIdx bs hashdir).updated := by
  have hu : (DiffIndex_compute dirIdx cmpIdx bs hashdir).updated =
      (computeUpdatedDeltas dirIdx cmpIdx bs (pySetInter cmpIdx.files dirIdx.files)).1 := rfl
  have hd : (DiffIndex_compute dirIdx cmpIdx bs hashdir).deltas =
      (computeUpdatedDeltas dirIdx cmpIdx bs (pySetInter cmpIdx.files dirIdx.files)).2 := rfl
  have h := computeUpdated_map_path dirIdx cmpIdx bs (pySetInter cmpIdx.files dirIdx.files)
  rw [hu, hd, ← h]
  refine ⟨rfl, by simp, ?_⟩
  · intro p
    constructor
    · rintro ⟨e, he, rfl⟩
      exact List.mem_map_of_mem DeltaEntry.path he
    · intro hp
      obtain ⟨e, he, hep⟩ := List.mem_map.mp hp
      exact ⟨e, he, hep⟩

/-- C1: delta round trip - every delta stored by `DiffIndex.compute` for an
updated path, computed by `rsyncdelta` of the new bytes against the old
block signature, reconstructs the new bytes exactly when replayed by
`patchstream` against any old bytes matching that signature (this is the
patch step of `apply_diff`). -/
theorem diffindex_delta_roundtrip (dirIdx cmpIdx : DirIndexData) (bs hashdir : Nat)
    (hbs : 0 < bs) (e : DeltaEntry)
    (he : e ∈ (DiffIndex_compute dirIdx cmpIdx bs hashdir).deltas)
    (oldBytes : List Nat)
    (hsig : cmpIdx.index e.path = blockchecksums bs oldBytes) :
    patchstream oldBytes bs e.delta = dirIdx.contents e.path := by
  have hd := computeUpdated_delta_eq dirIdx cmpIdx bs
    (pySetInter cmpIdx.files dirIdx.files) e he
  rw [hd, hsig]
  exact pyrsync_roundtrip oldBytes (dirIdx.contents e.path) bs hbs

/-- C1 witness: the concrete delta of `exNew` against the signature of
`exOld` patches `exOld` back to `exNew`. -/
theorem diffindex_delta_roundtrip_witness :
    0 < 2 ∧
      patchstream exOld 2
          (DeltaEntry.mk "file1" (rsyncdelta (blockchecksums 2 exOld) 2 exNew)).delta =
        exDirIdx.contents "file1" :=
  ⟨Nat.zero_lt_succ 1,
    diffindex_delta_roundtrip exDirIdx exCmpIdx 2 0 (Nat.zero_lt_succ 1)
      ⟨"file1", rsyncdelta (blockchecksums 2 exOld) 2 exNew⟩ (by decide) exOld rfl⟩

lemma sum_pos_nil {l : List Nat} (hp : ∀ e ∈ l, 0 < e) (h0 : l.sum = 0) : l = [] := by
  cases l with
  | nil => rfl
  | cons a t =>
    have ha := hp a (List.mem_cons_self a t)
    simp only [List.sum_cons] at h0
    omega

lemma tarvolume_foldl_inv (L : Nat) :
    ∀ (es : List Nat) (s : TarVolumeWriterState),
      (∀ e ∈ es, 0 < e) →
      (∀ e ∈ s.cur, 0 < e) →
      (∀ v ∈ s.closed, v.sum ≤ L ∨ v.length = 1) →
      (s.cur.sum ≤ L ∨ s.cur.length = 1) →
      (∀ v ∈ (es.foldl (tarvolume_add L) s).closed, v.sum ≤ L ∨ v.length = 1) ∧
      ((es.foldl (tarvolume_add L) s).cur.sum ≤ L ∨
        (es.foldl (tarvolume_add L) s).cur.length = 1) ∧
      (∀ e ∈ (es.foldl (tarvolume_add L) s).cur, 0 < e) ∧
      (es.foldl (tarvolume_add L) s).closed.flatten ++ (es.foldl (tarvolume_add L) s).cur =
        s.closed.flatten ++ s.cur ++ es := by
  intro es
  induction es with
  | nil =>
    intro s hes hcur hclosed hcb
    exact ⟨hclosed, hcb, hcur, by simp⟩
  | cons e rest ih =>
    intro s hes hcur hclosed hcb
    have he : 0 < e := hes e (List.mem_cons_self e rest)
    have hrest : ∀ x ∈ rest, 0 < x := fun x hx => hes x (List.mem_cons_of_mem e hx)
    simp only [List.foldl_cons]
    by_cases hroll : archive_size s ≠ 0 ∧ archive_size s + e > L
    · have hadd : tarvolume_add L s e = ⟨[e], s.closed ++ [s.cur]⟩ := by
        simp [tarvolume_add, check_size, if_pos hroll]
      rw [hadd]
      obtain ⟨c1, c2, c3, c4⟩ := ih ⟨[e], s.closed ++ [s.cur]⟩ hrest
        (by intro x hx; simp only [List.mem_singleton] at hx; omega)
        (by
          intro v hv
          rcases List.mem_append.mp hv with hv | hv
          · exact hclosed v hv
          · simp only [List.mem_singleton] at hv
            subst hv
            exact hcb)
        (Or.inr rfl)
      refine ⟨c1, c2, c3, ?_⟩
      rw [c4]
      simp [List.append_assoc]
    · have hadd : tarvolume_add L s e = ⟨s.cur ++ [e], s.closed⟩ := by
        simp [tarvolume_add, check_size, if_neg hroll]
      rw [hadd]
      have hcb2 : (s.cur ++ [e]).sum ≤ L ∨ (s.cur ++ [e]).length = 1 := by
        by_cases hz : archive_size s = 0
        · have : s.cur = [] := sum_pos_nil hcur hz
          rw [this]
          right
          rfl
        · have hle : archive_size s + e ≤ L := by
            rcases not_and_or.mp hroll with h | h
            · have h0 : archive_size s = 0 := by
                by_contra hne
                exact h hne
              exact absurd h0 hz
            · omega
          left
          simp only [List.sum_append, List.sum_cons, List.sum_nil]
          unfold archive_size at hle
          omega
      obtain ⟨c1, c2, c3, c4⟩ := ih ⟨s.cur ++ [e], s.closed⟩ hrest
        (by
          intro x hx
          rcases List.mem_append.mp hx with hx | hx
          · exact hcur x hx
          · simp only [List.mem_singleton] at hx
            omega)
        hclosed hcb2
      refine ⟨c1, c2, c3, ?_⟩
      rw [c4]
      simp [List.append_assoc]

/-- C4 counterexample: with volume size limit 10, adding a zero-size entry
and then a 15-byte entry puts both entries into the same volume - the
`_archive_size() != 0` emptiness test still sees size zero after the first
add - producing a volume of total size 15 > 10 that holds two entries, not a
single oversized one, and the oversized entry did not go into an
otherwise-empty volume. -/
theorem tarvolume_bound_counterexample :
    tarvolume_close (tarvolume_addAll 10 [0, 15]) = [[0, 15]] ∧
    10 < List.sum [0, 15] ∧ List.length [0, 15] ≠ 1 := by decide

/-- C4 (amended): when every added entry has positive size, the writer rolls
to a new volume exactly as claimed, so every volume (the closed ones and the
final one) either has total size at most L or consists of a single
(oversized) entry; entries are never split - concatenating the volumes
recovers the added entries whole and in order.  (The counterexample forces
the positivity hypothesis: a volume holding only zero-size entries passes
the `_archive_size() != 0` emptiness test as empty.) -/
theorem tarvolume_bound (L : Nat) (es : List Nat) (hpos : ∀ e ∈ es, 0 < e) :
    (∀ v ∈ tarvolume_close (tarvolume_addAll L es), v.sum ≤ L ∨ v.length = 1) ∧
    (tarvolume_close (tarvolume_addAll L es)).flatten = es := by
  obtain ⟨c1, c2, c3, c4⟩ := tarvolume_foldl_inv L es ⟨[], []⟩ hpos
    (by intro x hx; simp at hx)
    (by intro v hv; simp at hv)
    (Or.inl (by simp))
  constructor
  · intro v hv
    rcases List.mem_append.mp hv with hv | hv
    · exact c1 v hv
    · simp only [List.mem_singleton] at hv
      subst hv
      exact c2
  · show ((tarvolume_addAll L es).closed ++ [(tarvolume_addAll L es).cur]).flatten = es
    rw [List.flatten_append]
    simpa using c4

/-- C4 witness: a concrete all-positive sequence with an oversized entry. -/
theorem tarvolume_bound_witness :
    (∀ e ∈ [4, 5, 2, 15, 3], 0 < e) ∧
    ((∀ v ∈ tarvolume_close (tarvolume_addAll 10 [4, 5, 2, 15, 3]),
        v.sum ≤ 10 ∨ v.length = 1) ∧
      (tarvolume_close (tarvolume_addAll 10 [4, 5, 2, 15, 3])).flatten = [4, 5, 2, 15, 3]) :=
  ⟨by decide, tarvolume_bound 10 [4, 5, 2, 15, 3] (by decide)⟩

lemma le_foldl_max : ∀ (l : List Nat) (a : Nat), a ≤ l.foldl max a := by
  intro l
  induction l with
  | nil => intro a; exact le_rfl
  | cons b t ih =>
    intro a
    exact le_trans (le_max_left a b) (ih (max a b))

lemma mem_le_foldl_max : ∀ (l : List Nat) (a t : Nat), t ∈ l → t ≤ l.foldl max a := by
  intro l
  induction l with
  | nil => intro a t ht; simp at ht
  | cons b rest ih =>
    intro a t ht
    rcases List.mem_cons.mp ht with rfl | ht
    · exact le_trans (le_max_right a t) (le_foldl_max rest (max a t))
    · exact ih (max a b) t ht

lemma foldl_max_mem : ∀ (l : List Nat) (a : Nat), l.foldl max a ∈ l ∨ l.foldl max a = a := by
  intro l
  induction l with
  | nil => intro a; exact Or.inr rfl
  | cons b rest ih =>
    intro a
    rcases ih (max a b) with h | h
    · refine Or.inl ?_
      rw [List.foldl_cons]
      exact List.mem_cons_of_mem b h
    · rcases max_choice a b with hm | hm
      · refine Or.inr ?_
        rw [List.foldl_cons, h, hm]
      · refine Or.inl ?_
        rw [List.foldl_cons, h, hm]
        exact List.mem_cons_self b rest

lemma last_full_spec (fulls : List Nat) (h : fulls ≠ []) :
    last_full fulls ∈ fulls ∧ ∀ t ∈ fulls, t ≤ last_full fulls := by
  refine ⟨?_, fun t ht => mem_le_foldl_max fulls 0 t ht⟩
  rcases foldl_max_mem fulls 0 with hm | hm
  · exact hm
  · cases fulls with
    | nil => exact absurd rfl h
    | cons f rest =>
      have hf : f ≤ last_full (f :: rest) :=
        mem_le_foldl_max (f :: rest) 0 f (List.mem_cons_self f rest)
      unfold last_full at hf
      rw [hm] at hf
      have hf0 : f = 0 := Nat.le_zero.mp hf
      unfold last_full
      rw [hm, ← hf0]
      exact List.mem_cons_self f rest

lemma mem_incrStates (lf : Nat) (fulls : List Nat) :
    ∀ (states : List Nat) (s : Nat),
      s ∈ incrStates lf fulls states ↔ s ∈ states ∧ lf < s ∧ s ∉ fulls := by
  intro states
  induction states with
  | nil => intro s; simp [incrStates]
  | cons t rest ih =>
    intro s
    by_cases ht : lf < t ∧ t ∉ fulls
    · simp only [incrStates, if_pos ht, List.mem_cons]
      rw [ih s]
      constructor
      · rintro (rfl | ⟨h1, h2⟩)
        · exact ⟨Or.inl rfl, ht⟩
        · exact ⟨Or.inr h1, h2⟩
      · rintro ⟨rfl | h1, h2⟩
        · exact Or.inl rfl
        · exact Or.inr ⟨h1, h2⟩
    · simp only [incrStates, if_neg ht]
      rw [ih s]
      constructor
      · rintro ⟨h1, h2⟩
        exact ⟨List.mem_cons_of_mem t h1, h2⟩
      · rintro ⟨h1, h2⟩
        rcases List.mem_cons.mp h1 with rfl | h1
        · exact absurd h2 ht
        · exact ⟨h1, h2⟩

lemma incrStates_sublist (lf : Nat) (fulls : List Nat) :
    ∀ states : List Nat, List.Sublist (incrStates lf fulls states) states := by
  intro states
  induction states with
  | nil => exact List.Sublist.refl []
  | cons t rest ih =>
    by_cases ht : lf < t ∧ t ∉ fulls
    · simpa [incrStates, if_pos ht] using ih.cons₂ t
    · simpa [incrStates, if_neg ht] using ih.cons t

/-- C7: `get_full_and_incremental` starts with the most recent full backup
timestamp, its tail is exactly the incremental states with timestamp
strictly greater than the full backup for which no full backup exists at
that exact timestamp (in listing order), and the resulting chain is strictly
increasing - never non-increasing. -/
theorem get_full_and_incremental_chain (fulls states : List Nat)
    (hne : fulls ≠ []) (hsorted : states.Pairwise (· < ·)) :
    (get_full_and_incremental fulls states).head? = some (last_full fulls) ∧
    last_full fulls ∈ fulls ∧
    (∀ t ∈ fulls, t ≤ last_full fulls) ∧
    (∀ s, s ∈ (get_full_and_incremental fulls states).tail ↔
      s ∈ states ∧ last_full fulls < s ∧ s ∉ fulls) ∧
    (get_full_and_incremental fulls states).Pairwise (· < ·) := by
  obtain ⟨hmem, hub⟩ := last_full_spec fulls hne
  refine ⟨rfl, hmem, hub, fun s => mem_incrStates _ _ states s, ?_⟩
  unfold get_full_and_incremental
  refine List.pairwise_cons.mpr ⟨?_, ?_⟩
  · intro s hs
    exact ((mem_incrStates _ _ states s).mp hs).2.1
  · exact hsorted.sublist (incrStates_sublist _ _ states)

/-- C7 witness: a concrete listing with two full backups and four states,
one of which coincides with a full backup timestamp. -/
theorem get_full_and_incremental_chain_witness :
    (([5, 3] : List Nat) ≠ [] ∧ List.Pairwise (· < ·) [2, 4, 6, 9]) ∧
      (get_full_and_incremental [5, 3] [2, 4, 6, 9]).Pairwise (· < ·) :=
  ⟨⟨by decide, by decide⟩,
    (get_full_and_incremental_chain [5, 3] [2, 4, 6, 9] (by decide) (by decide)).2.2.2.2⟩

/-- C9 counterexample: the empty mode string passes the validation (it is a
Python substring of the two-character string rw) but falls into the else
branch of the `mode == 'r'` test, so `TarVolume.open` returns a
`TarVolumeWriter`, not a `TarVolumeReader` as claimed. -/
theorem tarvolume_open_empty_mode_counterexample :
    TarVolume_open [] = Except.ok TVKind.writer ∧
    TarVolume_open [] ≠ Except.ok TVKind.reader :=
  ⟨rfl, fun h => TVKind.noConfusion (Except.ok.inj h)⟩

/-- C9 (amended): `TarVolume.open` raises `ValueError` exactly when the mode
has length greater than one or is a single character other than r or w; the
empty mode passes the validation and returns a `TarVolumeWriter` - the same
as mode w - while mode r returns a `TarVolumeReader`. -/
theorem tarvolume_open_mode (m : List Char) :
    ((TarVolume_open m = Except.error ("ValueError")) ↔
      (1 < m.length ∨ (m ≠ [] ∧ m ≠ ['r'] ∧ m ≠ ['w']))) ∧
    TarVolume_open [] = Except.ok TVKind.writer ∧
    TarVolume_open ['r'] = Except.ok TVKind.reader ∧
    TarVolume_open ['w'] = Except.ok TVKind.writer := by
  refine ⟨?_, rfl, rfl, rfl⟩
  match m with
  | [] => simp [TarVolume_open, pyInStr]
  | [c] =>
    have hpy : pyInStr [c] ['r', 'w'] = ((c == 'r') || (c == 'w')) := by
      simp [pyInStr, List.isPrefixOf]
    by_cases hr : c = 'r'
    · subst hr
      simp [TarVolume_open, hpy]
    · by_cases hw : c = 'w'
      · subst hw
        simp [TarVolume_open, hpy]
      · have h1 : (c == 'r') = false := beq_eq_false_iff_ne.mpr hr
        have h2 : (c == 'w') = false := beq_eq_false_iff_ne.mpr hw
        simp [TarVolume_open, hpy, h1, h2, hr, hw]
  | c1 :: c2 :: t =>
    simp [TarVolume_open]

lemma applyUpdated_missing (ar : Archive) (bs : Nat) :
    ∀ (l : List String) (fs : FS),
      (∃ p ∈ l, ar.updatedMembers.lookup (get_hash p) = none) →
      ∃ e, applyUpdated ar bs fs l = Except.error e := by
  intro l
  induction l with
  | nil =>
    intro fs h
    obtain ⟨p, hp, -⟩ := h
    simp at hp
  | cons q rest ih =>
    intro fs h
    cases hq : ar.updatedMembers.lookup (get_hash q) with
    | none => exact ⟨"DIFF CORRUPTED", by simp [applyUpdated, hq]⟩
    | some delta =>
      obtain ⟨p, hp, hnone⟩ := h
      rcases List.mem_cons.mp hp with rfl | hp2
      · rw [hq] at hnone
        exact absurd hnone (by simp)
      · cases hfs : fsLookup fs q with
        | none => exact ⟨"IOError", by simp [applyUpdated, hq, hfs]⟩
        | some old =>
          obtain ⟨e, he⟩ := ih (fsWrite fs q (patchstream old bs delta)) ⟨p, hp2, hnone⟩
          exact ⟨e, by simp [applyUpdated, hq, hfs, he]⟩

lemma applyCreated_missing (ar : Archive) :
    ∀ (l : List String) (fs : FS),
      (∃ p ∈ l, ar.createdMembers.lookup (get_hash p) = none) →
      ∃ e, applyCreated ar fs l = Except.error e := by
  intro l
  induction l with
  | nil =>
    intro fs h
    obtain ⟨p, hp, -⟩ := h
    simp at hp
  | cons q rest ih =>
    intro fs h
    cases hq : ar.createdMembers.lookup (get_hash q) with
    | none => exact ⟨"DIFF CORRUPTED", by simp [applyCreated, hq]⟩
    | some bytes =>
      obtain ⟨p, hp, hnone⟩ := h
      rcases List.mem_cons.mp hp with rfl | hp2
      · rw [hq] at hnone
        exact absurd hnone (by simp)
      · obtain ⟨e, he⟩ := ih (fsWrite fs q bytes) ⟨p, hp2, hnone⟩
        exact ⟨e, by simp [applyCreated, hq, he]⟩

/-- C2 counterexample: on an archive missing the `updated/{get_hash file1}`
member, `apply_diff` aborts with the fatal DIFF CORRUPTED exception - it
does not record the failure and continue, and the created, deleted and
deleted_dirs changes of `exDiffC2` are never applied (no filesystem is
returned at all). -/
theorem apply_diff_missing_member_counterexample :
    apply_diff exFS exDiffC2 exArchiveC2 4 = Except.error ("DIFF CORRUPTED") := rfl

/-- C2 (amended): a missing archive entry for an updated or created path is
caught as `KeyError`, logged, and re-raised as a fatal generic exception, so
`apply_diff` aborts: it returns an error and applies none of the remaining
changes, instead of recording the per-file failure and continuing. -/
theorem apply_diff_missing_member_aborts (fs : FS) (d : DiffIndexData) (ar : Archive)
    (bs : Nat)
    (h : (∃ p ∈ d.updated, ar.updatedMembers.lookup (get_hash p) = none) ∨
         (∃ p ∈ d.created, ar.createdMembers.lookup (get_hash p) = none)) :
    ∃ e, apply_diff fs d ar bs = Except.error e := by
  rcases h with h | h
  · obtain ⟨e, he⟩ := applyUpdated_missing ar bs d.updated fs h
    refine ⟨e, ?_⟩
    unfold apply_diff
    rw [he]
    rfl
  · cases hu : applyUpdated ar bs fs d.updated with
    | error e =>
      refine ⟨e, ?_⟩
      unfold apply_diff
      rw [hu]
      rfl
    | ok fs1 =>
      obtain ⟨e, he⟩ := applyCreated_missing ar d.created fs1 h
      refine ⟨e, ?_⟩
      unfold apply_diff
      rw [hu]
      show applyCreated ar fs1 d.created >>= _ = _
      rw [he]
      rfl

/-- C2 witness: the concrete archive of the counterexample, fed through the
amended theorem. -/
theorem apply_diff_missing_member_witness :
    ((∃ p ∈ exDiffC2.updated, exArchiveC2.updatedMembers.lookup (get_hash p) = none) ∨
      (∃ p ∈ exDiffC2.created, exArchiveC2.createdMembers.lookup (get_hash p) = none)) ∧
    (∃ e, apply_diff exFS exDiffC2 exArchiveC2 4 = Except.error e) :=
  ⟨Or.inl ⟨"file1", by decide, rfl⟩,
    apply_diff_missing_member_aborts exFS exDiffC2 exArchiveC2 4
      (Or.inl ⟨"file1", by decide, rfl⟩)⟩

lemma lookup_filter_ne {l : List (String × List Nat)} {p q : String} (h : p ≠ q) :
    (l.filter (fun x => !(x.1 == q))).lookup p = l.lookup p := by
  induction l with
  | nil => rfl
  | cons a t ih =>
    obtain ⟨k, v⟩ := a
    by_cases hk : k = q
    · subst hk
      have hb : (k == k) = true := beq_self_eq_true k
      have hpk : (p == k) = false := beq_eq_false_iff_ne.mpr h
      simp [List.filter, List.lookup, hpk, ih]
    · have hb : (k == q) = false := beq_eq_false_iff_ne.mpr hk
      simp only [List.filter, hb, Bool.not_false]
      by_cases hpk : p = k
      · subst hpk
        simp [List.lookup]
      · have hpkb : (p == k) = false := beq_eq_false_iff_ne.mpr hpk
        simp [List.lookup, hpkb, ih]

lemma fsLookup_write_preserve {fs : FS} {p q : String} {v : List Nat}
    (h : fsLookup fs p ≠ none) : fsLookup (fsWrite fs q v) p ≠ none := by
  unfold fsLookup fsWrite at *
  by_cases hpq : p = q
  · subst hpq
    simp [List.lookup]
  · have hb : (p == q) = false := beq_eq_false_iff_ne.mpr hpq
    simp only [List.lookup, hb, lookup_filter_ne hpq]
    exact h

lemma applyUpdated_ok (ar : Archive) (bs : Nat) :
    ∀ (l : List String) (fs : FS),
      (∀ p ∈ l, ar.updatedMembers.lookup (get_hash p) ≠ none ∧ fsLookup fs p ≠ none) →
      ∃ fs2, applyUpdated ar bs fs l = Except.ok fs2 := by
  intro l
  induction l with
  | nil => intro fs _; exact ⟨fs, rfl⟩
  | cons q rest ih =>
    intro fs h
    obtain ⟨hq1, hq2⟩ := h q (List.mem_cons_self q rest)
    cases hq : ar.updatedMembers.lookup (get_hash q) with
    | none => exact absurd hq hq1
    | some delta =>
      cases hfs : fsLookup fs q with
      | none => exact absurd hfs hq2
      | some old =>
        obtain ⟨fs2, h2⟩ := ih (fsWrite fs q (patchstream old bs delta))
          (by
            intro p hp
            obtain ⟨a1, a2⟩ := h p (List.mem_cons_of_mem q hp)
            exact ⟨a1, fsLookup_write_preserve a2⟩)
        exact ⟨fs2, by simp [applyUpdated, hq, hfs, h2]⟩

lemma applyCreated_ok (ar : Archive) :
    ∀ (l : List String) (fs : FS),
      (∀ p ∈ l, ar.createdMembers.lookup (get_hash p) ≠ none) →
      ∃ fs2, applyCreated ar fs l = Except.ok fs2 := by
  intro l
  induction l with
  | nil => intro fs _; exact ⟨fs, rfl⟩
  | cons q rest ih =>
    intro fs h
    cases hq : ar.createdMembers.lookup (get_hash q) with
    | none => exact absurd hq (h q (List.mem_cons_self q rest))
    | some bytes =>
      obtain ⟨fs2, h2⟩ := ih (fsWrite fs q bytes)
        (fun p hp => h p (List.mem_cons_of_mem q hp))
      exact ⟨fs2, by simp [applyCreated, hq, h2]⟩

/-- C3 counterexample: with every archive member present and a stored tree
hash that does not match the resulting tree, `apply_diff` returns a normal
(ok) result carrying only a log line - the integrity failure is written to
the log and is not surfaced as a structured error to the caller. -/
theorem apply_diff_integrity_counterexample :
    apply_diff exFS exDiffC3 exArchiveC3 4 =
      Except.ok (fsWrite exFS "file4" [9], [integrityMsg]) ∧
    hashFS (fsWrite exFS "file4" [9]) ≠ exDiffC3.hashdir := by
  constructor
  · rfl
  · decide

/-- C3 (amended): when every needed member is present, `apply_diff` always
returns a normal (ok) result; the final integrity check compares the
recomputed tree hash with the stored one and, on mismatch, only appends the
log line - the mismatch is reported in the log attached to the ok result,
never as an error surfaced to the caller. -/
theorem apply_diff_integrity_logged_only (fs : FS) (d : DiffIndexData) (ar : Archive)
    (bs : Nat)
    (hU : ∀ p ∈ d.updated, ar.updatedMembers.lookup (get_hash p) ≠ none ∧
      fsLookup fs p ≠ none)
    (hC : ∀ p ∈ d.created, ar.createdMembers.lookup (get_hash p) ≠ none) :
    ∃ fs2 logs, apply_diff fs d ar bs = Except.ok (fs2, logs) ∧
      (integrityMsg ∈ logs ↔ hashFS fs2 ≠ d.hashdir) := by
  obtain ⟨fs1, h1⟩ := applyUpdated_ok ar bs d.updated fs hU
  obtain ⟨fs2, h2⟩ := applyCreated_ok ar d.created fs1 hC
  refine ⟨d.deleted_dirs.foldl fsRemoveDir (d.deleted.foldl fsRemoveFile fs2),
    if hashFS (d.deleted_dirs.foldl fsRemoveDir (d.deleted.foldl fsRemoveFile fs2)) =
        d.hashdir then [] else [integrityMsg], ?_, ?_⟩
  · unfold apply_diff
    rw [h1]
    show applyCreated ar fs1 d.created >>= _ = _
    rw [h2]
    rfl
  · by_cases hh : hashFS (d.deleted_dirs.foldl fsRemoveDir
        (d.deleted.foldl fsRemoveFile fs2)) = d.hashdir
    · simp [hh]
    · simp [hh]

/-- C3 witness: concrete inputs with every member present. -/
theorem apply_diff_integrity_witness :
    ((∀ p ∈ exDiffOk.updated, exArchiveOk.updatedMembers.lookup (get_hash p) ≠ none ∧
        fsLookup exFS p ≠ none) ∧
      (∀ p ∈ exDiffOk.created, exArchiveOk.createdMembers.lookup (get_hash p) ≠ none)) ∧
    (∃ fs2 logs, apply_diff exFS exDiffOk exArchiveOk 4 = Except.ok (fs2, logs) ∧
      (integrityMsg ∈ logs ↔ hashFS fs2 ≠ exDiffOk.hashdir)) :=
  ⟨⟨by decide, by decide⟩,
    apply_diff_integrity_logged_only exFS exDiffOk exArchiveOk 4 (by decide) (by decide)⟩

/-- C8 counterexample: for the concrete update of [1] to [2, 3], the target
file passes through the truncated (empty) state during the replace step of
`apply_diff`, a state that is neither the old bytes nor the complete new
bytes - so an interruption can leave a half-patched (here empty) target. -/
theorem apply_replace_counterexample :
    patchstream [1] 1 (rsyncdelta (blockchecksums 1 [1]) 1 [2, 3]) = [2, 3] ∧
    [] ∈ replaceTrace [1] (patchstream [1] 1 (rsyncdelta (blockchecksums 1 [1]) 1 [2, 3])) ∧
    ([] : List Nat) ≠ [1] ∧ ([] : List Nat) ≠ [2, 3] := by decide

/-- C8 (amended): the patched result is first written to a scratch temp
file, and on completion the target holds exactly the complete new bytes;
but the replacement is a truncate-then-copy (open with mode wb, then
`shutil.copyfileobj`) rather than an atomic temp-file-then-rename, so for
any nonempty old and new contents the target passes through an intermediate
state that is neither its old bytes nor the complete new bytes. -/
theorem apply_replace_not_atomic (old newData : List Nat) (bs : Nat) (hbs : 0 < bs)
    (hold : old ≠ []) (hnew : newData ≠ []) :
    (replaceTrace old
        (patchstream old bs (rsyncdelta (blockchecksums bs old) bs newData))).getLast? =
      some newData ∧
    ∃ s ∈ replaceTrace old
        (patchstream old bs (rsyncdelta (blockchecksums bs old) bs newData)),
      s ≠ old ∧ s ≠ newData := by
  have hp := pyrsync_roundtrip old newData bs hbs
  rw [hp]
  refine ⟨rfl, [], by simp [replaceTrace], fun h => hold h.symm, fun h => hnew h.symm⟩

/-- C8 witness: the amended theorem at the concrete update of [1] to [2, 3]. -/
theorem apply_replace_not_atomic_witness :
    (0 < 1 ∧ ([1] : List Nat) ≠ [] ∧ ([2, 3] : List Nat) ≠ []) ∧
    ((replaceTrace [1]
          (patchstream [1] 1 (rsyncdelta (blockchecksums 1 [1]) 1 [2, 3]))).getLast? =
        some [2, 3] ∧
      ∃ s ∈ replaceTrace [1]
          (patchstream [1] 1 (rsyncdelta (blockchecksums 1 [1]) 1 [2, 3])),
        s ≠ [1] ∧ s ≠ [2, 3]) :=
  ⟨⟨by decide, by decide, by decide⟩,
    apply_replace_not_atomic [1] [2, 3] 1 (by decide) (by decide) (by decide)⟩
